import Mathlib

/-!
Shallow embedding of `scripts/convert_to_coco.py` (Plant_Village_Strawberry).

The script converts a folder-based annotation dataset into COCO JSON, split
by train/val/test.  We embed its pure data flow:

* the filesystem state visible to `collect_annotations_for_category` is an
  explicit `CatRoot` value: the optional label-map file, the split files,
  and the list of subdirectory entries in the order `Path.iterdir` yields
  them;
* file names inside an `images/` directory are represented by their
  `Path.stem` / `Path.suffix` decomposition (split at the last dot), so
  `p.stem` is a projection and `images_dir / f"{stem}{ext}"` is a pair;
* CSV rows are represented by the outcome of `row.get(...)` plus
  `float(...)` / `int(...)` on each relevant column: a column is either
  absent from the header (Python then converts the literal default), read
  as `None` because the data row is short (`csv.DictReader` fills missing
  columns with its `restval`, and `float(None)` / `int(None)` raise
  `TypeError`, which `except (ValueError, KeyError)` does not catch, so the
  whole call aborts), parses to a value, or raises `ValueError` (caught,
  row skipped); float values are idealised as `ℚ`.  The full model is
  `CsvRow'` / `parse_csv_boxes'`; the collector uses the `None`-free
  fragment `CsvRow` / `parse_csv_boxes`, which is sound for document-level
  claims because an aborting run produces no document, and which agrees
  with the full model on `None`-free rows (`rowsGo_lift`);
* Python's `sorted` on strings (comparison by Unicode code points) is
  embedded as insertion sort by an executable code-point lexicographic
  comparator on `String.data`.
-/

namespace ConvertToCoco

/-- Code-point lexicographic "less or equal" on character lists, the order
Python uses to compare strings. -/
def lexLeB : List Char → List Char → Bool
  | [], _ => true
  | _ :: _, [] => false
  | c :: cs, d :: ds =>
    if c.toNat < d.toNat then true
    else if d.toNat < c.toNat then false
    else lexLeB cs ds

/-- String order used by `sorted(...)` in the script (code-point order). -/
def strle (a b : String) : Prop := lexLeB a.data b.data = true

instance : DecidableRel strle := fun a b => instDecidableEqBool (lexLeB a.data b.data) true

/-- Python `str.strip()` on one line of a split file.  `Char.isWhitespace`
covers space, tab, CR and LF; Python also strips other Unicode whitespace,
a difference no claim here depends on. -/
def pyStrip (s : String) : String :=
  ⟨((s.data.dropWhile Char.isWhitespace).reverse.dropWhile Char.isWhitespace).reverse⟩

/-- `read_split_list`: the split file is either absent (`none`) or a list of
raw lines; lines are stripped and blank lines dropped. -/
def read_split_list : Option (List String) → List String
  | none => []
  | some lines => (lines.map pyStrip).filter (fun l => decide (l ≠ ""))

/-- Outcome of `float(row.get(col, 0))` for one CSV column of a row that is
not short: the column can be absent from the header (Python then converts
the default `0`), parse to a number, or raise `ValueError` (caught).  The
fourth outcome — the data row is short, so `DictReader` read the column as
`None` and `float(None)` raises an uncaught `TypeError` — is modelled by
`FieldF'`; this `None`-free fragment is what the collector-level claims use,
since a run that hits that `TypeError` produces no output document. -/
inductive FieldF where
  | absent
  | val (q : ℚ)
  | bad
deriving DecidableEq, Repr

/-- Outcome of `int(row.get('label', 1))` for the label column of a row that
is not short; the short-row `int(None)` `TypeError` outcome is modelled by
`FieldI'`. -/
inductive FieldI where
  | absent
  | val (n : ℤ)
  | bad
deriving DecidableEq, Repr

/-- One CSV data row, seen through the five column accesses the script does. -/
structure CsvRow where
  x : FieldF
  y : FieldF
  width : FieldF
  height : FieldF
  label : FieldI
deriving DecidableEq, Repr

/-- `float(row.get(c, 0))`: absent columns give `0.0`, malformed ones raise. -/
def getF : FieldF → Option ℚ
  | .absent => some 0
  | .val q => some q
  | .bad => none

/-- `int(row.get('label', 1))`: absent gives `1`, malformed raises. -/
def getI : FieldI → Option ℤ
  | .absent => some 1
  | .val n => some n
  | .bad => none

/-- A parsed bounding box as `parse_csv_boxes` emits it. -/
structure Box where
  bbox : List ℚ
  area : ℚ
  category_id : ℤ
deriving DecidableEq, Repr

/-- Body of the per-row `try` block of `parse_csv_boxes`: any field failure
skips the row; a box is appended only when `width > 0 and height > 0`. -/
def parseRow (r : CsvRow) : Option Box :=
  (getF r.x).bind fun a =>
  (getF r.y).bind fun b =>
  (getF r.width).bind fun w =>
  (getF r.height).bind fun h =>
  (getI r.label).bind fun lab =>
  if 0 < w ∧ 0 < h then some ⟨[a, b, w, h], w * h, lab⟩ else none

/-- `parse_csv_boxes` on the `None`-free row fragment: `none` is a missing
CSV file (empty result); otherwise each row is parsed independently and
failed rows are skipped.  The full behaviour, including the uncaught
`TypeError` abort on a short row, is `parse_csv_boxes'`; the two agree on
`None`-free rows (`rowsGo_lift`). -/
def parse_csv_boxes : Option (List CsvRow) → List Box
  | none => []
  | some rows => rows.filterMap parseRow

/-- Outcome of `float(row.get(col, 0))` for one CSV column, with all four
cases: `absent` — the column is not in the header, so `row.get` returns the
default and `float(0)` succeeds; `missing` — the data row is short, so
`DictReader` filled the column with `None` and `float(None)` raises
`TypeError`, which `except (ValueError, KeyError)` does not catch; `val` — a
parsed number; `bad` — `ValueError`, caught. -/
inductive FieldF' where
  | absent
  | missing
  | val (q : ℚ)
  | bad
deriving DecidableEq, Repr

/-- Outcome of `int(row.get('label', 1))` with the same four cases. -/
inductive FieldI' where
  | absent
  | missing
  | val (n : ℤ)
  | bad
deriving DecidableEq, Repr

/-- One CSV data row under the full field model. -/
structure CsvRow' where
  x : FieldF'
  y : FieldF'
  width : FieldF'
  height : FieldF'
  label : FieldI'
deriving DecidableEq, Repr

/-- Result of evaluating one `float(...)`/`int(...)` call: a value, a caught
`ValueError` (the row is skipped), or an uncaught `TypeError` (the whole
`parse_csv_boxes` call aborts). -/
inductive FieldEval (α : Type) where
  | ok (a : α)
  | valueError
  | typeError
deriving DecidableEq, Repr

/-- `float(row.get(c, 0))` under the full model. -/
def getF' : FieldF' → FieldEval ℚ
  | .absent => .ok 0
  | .missing => .typeError
  | .val q => .ok q
  | .bad => .valueError

/-- `int(row.get('label', 1))` under the full model. -/
def getI' : FieldI' → FieldEval ℤ
  | .absent => .ok 1
  | .missing => .typeError
  | .val n => .ok n
  | .bad => .valueError

/-- Outcome of the `try` block on one row: a box is appended, the row is
skipped (caught exception or non-positive dimensions), or an uncaught
exception propagates. -/
inductive RowOutcome where
  | emit (b : Box)
  | skipRow
  | abort
deriving DecidableEq, Repr

/-- Sequencing of field evaluations inside the `try` block: the first caught
exception skips the row, the first uncaught one aborts the call. -/
def feStep {α : Type} : FieldEval α → (α → RowOutcome) → RowOutcome
  | .ok a, k => k a
  | .valueError, _ => .skipRow
  | .typeError, _ => .abort

/-- The per-row `try` block under the full model, with the five field
evaluations in program order followed by the positivity filter. -/
def parseRow' (r : CsvRow') : RowOutcome :=
  feStep (getF' r.x) fun a =>
  feStep (getF' r.y) fun b =>
  feStep (getF' r.width) fun w =>
  feStep (getF' r.height) fun h =>
  feStep (getI' r.label) fun lab =>
  if 0 < w ∧ 0 < h then .emit ⟨[a, b, w, h], w * h, lab⟩ else .skipRow

/-- The reader loop of `parse_csv_boxes` under the full model: rows in
order; a skipped row contributes nothing, and an aborting row discards
everything — the exception propagates and the function never returns. -/
def rowsGo : List CsvRow' → Except Unit (List Box)
  | [] => .ok []
  | r :: rest =>
    match parseRow' r with
    | .abort => .error ()
    | .skipRow => rowsGo rest
    | .emit b =>
      match rowsGo rest with
      | .error e => .error e
      | .ok bs => .ok (b :: bs)

/-- `parse_csv_boxes` under the full model: a missing file is an empty
result; a short data row reached during parsing aborts the whole call. -/
def parse_csv_boxes' : Option (List CsvRow') → Except Unit (List Box)
  | none => .ok []
  | some rows => rowsGo rows

/-- Embedding of a `None`-free field into the full model. -/
def liftF : FieldF → FieldF'
  | .absent => .absent
  | .val q => .val q
  | .bad => .bad

/-- Embedding of a `None`-free label field into the full model. -/
def liftI : FieldI → FieldI'
  | .absent => .absent
  | .val n => .val n
  | .bad => .bad

/-- Embedding of a `None`-free row into the full model. -/
def liftRow (r : CsvRow) : CsvRow' :=
  ⟨liftF r.x, liftF r.y, liftF r.width, liftF r.height, liftI r.label⟩

/-- One entry of `labelmap.json`, with each of the two fields possibly
missing (a missing field raises `KeyError` when accessed). -/
structure LMEntry where
  object_name : Option String
  label_id : Option ℤ
deriving DecidableEq, Repr

/-- Content of the label-map file when it exists: either text that is not
valid JSON (so `json.load` raises), or a parsed array of entries. -/
inductive LMFile where
  | invalidJson
  | entries (es : List LMEntry)
deriving DecidableEq, Repr

/-- Python-dict insertion `d[k] = v`: overwrite in place, else append. -/
def dictInsert (k : ℤ) (v : String) : List (ℤ × String) → List (ℤ × String)
  | [] => [(k, v)]
  | (k', v') :: rest =>
    if k' = k then (k', v) :: rest else (k', v') :: dictInsert k v rest

/-- Loop body of `load_labelmap`: `item['object_name']` is read first (a
missing field raises), background entries are skipped before `label_id` is
ever read, other entries are inserted into the dict. -/
def lmGo : List LMEntry → List (ℤ × String) → Except Unit (List (ℤ × String))
  | [], acc => .ok acc
  | e :: rest, acc =>
    match e.object_name with
    | none => .error ()
    | some name =>
      if name = "background" then lmGo rest acc
      else
        match e.label_id with
        | none => .error ()
        | some lid => lmGo rest (dictInsert lid name acc)

/-- `load_labelmap`: missing file gives an empty mapping; invalid JSON or a
missing required field propagates as an error. -/
def load_labelmap : Option LMFile → Except Unit (List (ℤ × String))
  | none => .ok []
  | some .invalidJson => .error ()
  | some (.entries es) => lmGo es []

/-- A file name in an `images/` folder, as its stem/extension split. -/
structure FName where
  stem : String
  ext : String
deriving DecidableEq, Repr

def fullName (f : FName) : String := f.stem ++ f.ext

/-- The four glob patterns used to build the candidate stem set. -/
def fourExts : List String := [".jpg", ".JPG", ".png", ".PNG"]

/-- The extension resolution order tried for each selected stem. -/
def extOrder : List String := [".jpg", ".JPG", ".png", ".PNG", ".bmp", ".BMP"]

/-- Stems of `images/*.jpg|*.JPG|*.png|*.PNG`, as a duplicate-free list (the
script collects them into a set). -/
def globStems (files : List FName) : List String :=
  ((files.filter (fun f => decide (f.ext ∈ fourExts))).map FName.stem).dedup

/-- The `for ext in [...]` loop resolving the first existing image file for a
stem. -/
def resolveImg (files : List FName) (stem : String) : Option FName :=
  (extOrder.find? (fun e => decide (FName.mk stem e ∈ files))).map
    (fun e => FName.mk stem e)

/-- `sorted(image_stems & subcat_images)`: the intersection of the split set
with the candidate stems, in Python's sorted (code-point) order. -/
def selectedStems (stems : List String) (files : List FName) : List String :=
  List.insertionSort strle ((globStems files).filter (fun s => decide (s ∈ stems)))

/-- `category_name[:-1] if category_name.endswith('s') else category_name`. -/
def stripS (catName : String) : String :=
  if catName.data.getLast? = some 's' then ⟨catName.data.dropLast⟩ else catName

/-- A COCO image record as assembled by the collector. -/
structure ImageRec where
  id : ℕ
  file_name : String
  width : ℕ
  height : ℕ
deriving DecidableEq, Repr

/-- A COCO annotation record as assembled by the collector. -/
structure AnnRec where
  id : ℕ
  image_id : ℕ
  category_id : ℤ
  bbox : List ℚ
  area : ℚ
  iscrowd : ℕ
deriving DecidableEq, Repr

/-- A COCO category record. -/
structure CatRec where
  id : ℤ
  name : String
  supercategory : String
deriving DecidableEq, Repr

/-- The categories list: `sorted(id_to_name.items())` mapped to records. -/
def mkCats (m : List (ℤ × String)) (catName : String) : List CatRec :=
  (List.insertionSort (fun a b : ℤ × String => a.1 ≤ b.1) m).map
    (fun p => ⟨p.1, p.2, stripS catName⟩)

/-- One directory entry of the category root, in `iterdir` order: its name,
whether it is a directory, whether it has an `images/` subfolder, the image
file listing, the image-size probe, and the CSV files keyed by stem. -/
structure SubcatDir where
  name : String
  isDir : Bool
  hasImages : Bool
  imageFiles : List FName
  dims : FName → ℕ × ℕ
  csv : List (String × List CsvRow)

/-- The filesystem state under the category root. -/
structure CatRoot where
  labelmap : Option LMFile
  splitFiles : List (String × List String)
  subdirs : List SubcatDir

/-- The split's base-name collection, `set(read_split_list(...))` used only
through membership. -/
def splitStems (root : CatRoot) (split : String) : List String :=
  read_split_list (root.splitFiles.lookup split)

/-- Collector loop state: emitted records and the two id counters. -/
structure Acc where
  imgs : List ImageRec
  anns : List AnnRec
  ic : ℕ
  ac : ℕ

/-- The inner `for box in parse_csv_boxes(...)` loop: sequential annotation
ids starting at `ac`, all referencing image id `ic`. -/
def numberBoxes (ic ac : ℕ) : List Box → List AnnRec
  | [] => []
  | b :: bs => ⟨ac, ic, b.category_id, b.bbox, b.area, 0⟩ :: numberBoxes ic (ac + 1) bs

/-- Body of `for stem in sorted(image_stems & subcat_images)`. -/
def procStem (catName : String) (d : SubcatDir) (acc : Acc) (stem : String) : Acc :=
  match resolveImg d.imageFiles stem with
  | none => acc
  | some f =>
    let wh := d.dims f
    let img : ImageRec :=
      ⟨acc.ic, catName ++ "/" ++ d.name ++ "/images/" ++ fullName f, wh.1, wh.2⟩
    let boxes := parse_csv_boxes (d.csv.lookup stem)
    ⟨acc.imgs ++ [img], acc.anns ++ numberBoxes acc.ic acc.ac boxes,
      acc.ic + 1, acc.ac + boxes.length⟩

/-- Body of `for subcat_dir in category_root.iterdir()`. -/
def procSubcat (catName : String) (stems : List String) (acc : Acc) (d : SubcatDir) : Acc :=
  if d.isDir && !(d.name == "sets") && d.hasImages then
    (selectedStems stems d.imageFiles).foldl (procStem catName d) acc
  else acc

/-- The traversal of `collect_annotations_for_category` (everything after the
label map loaded successfully). -/
def collectAcc (root : CatRoot) (split : String) (catName : String) : Acc :=
  root.subdirs.foldl (procSubcat catName (splitStems root split)) ⟨[], [], 1, 1⟩

/-- `collect_annotations_for_category`: a label-map failure propagates;
otherwise the three lists (images, annotations, categories) are returned. -/
def collect (root : CatRoot) (split : String) (catName : String) :
    Except Unit (List ImageRec × List AnnRec × List CatRec) :=
  match load_labelmap root.labelmap with
  | .error e => .error e
  | .ok m =>
    .ok ((collectAcc root split catName).imgs, (collectAcc root split catName).anns,
      mkCats m catName)

/-- The `info` header of `build_coco_dict`. -/
structure Info where
  year : ℤ
  version : String
  description : String
  url : String
deriving DecidableEq, Repr

/-- The complete COCO document shape. -/
structure CocoDoc where
  info : Info
  images : List ImageRec
  annotations : List AnnRec
  categories : List CatRec
  licenses : List Unit
deriving DecidableEq, Repr

/-- `build_coco_dict`. -/
def build_coco_dict (images : List ImageRec) (anns : List AnnRec)
    (categories : List CatRec) (description url : String) (year : ℤ) : CocoDoc :=
  ⟨⟨year, "1.0.0", description, url⟩, images, anns, categories, []⟩

/-- One split of the driver loop: collect, then build the document. -/
def runSplit (root : CatRoot) (split : String) (catName : String)
    (description url : String) (year : ℤ) : Except Unit CocoDoc :=
  match collect root split catName with
  | .error e => .error e
  | .ok (imgs, anns, cats) => .ok (build_coco_dict imgs anns cats description url year)

/-! ### Derived predicates and concrete example states -/

/-- Invariant of the collector loop state: image and annotation ids are
exactly `1..n` in emission order, each counter sits one past the end of its
list, and every annotation references an already emitted image id. -/
def accInv (acc : Acc) : Prop :=
  acc.imgs.map ImageRec.id = List.range' 1 acc.imgs.length ∧
  acc.anns.map AnnRec.id = List.range' 1 acc.anns.length ∧
  acc.ic = acc.imgs.length + 1 ∧
  acc.ac = acc.anns.length + 1 ∧
  ∀ a ∈ acc.anns, 1 ≤ a.image_id ∧ a.image_id ≤ acc.imgs.length

/-- Provenance of an emitted image record: it came from some subdirectory of
the root, from a stem that is both in the split set and a glob candidate,
through the extension-resolution loop. -/
def imgProvenance (root : CatRoot) (split catName : String) (i : ImageRec) : Prop :=
  ∃ d ∈ root.subdirs, ∃ stem f,
    stem ∈ splitStems root split ∧
    stem ∈ globStems d.imageFiles ∧
    resolveImg d.imageFiles stem = some f ∧
    i.file_name = catName ++ "/" ++ d.name ++ "/images/" ++ (f.stem ++ f.ext)

/-- Two directory entries equal up to the order of their image-file listing:
same name, flags, size probe and CSV data, and the same set of image files. -/
def SubcatEquiv (d1 d2 : SubcatDir) : Prop :=
  d1.name = d2.name ∧ d1.isDir = d2.isDir ∧ d1.hasImages = d2.hasImages ∧
  (∀ f, f ∈ d1.imageFiles ↔ f ∈ d2.imageFiles) ∧ d1.dims = d2.dims ∧ d1.csv = d2.csv

/-- Image-size probe used by the concrete example states. -/
def exDims : FName → ℕ × ℕ := fun _ => (100, 80)

/-- CSV data of the concrete example subdirectory: one good row, one row with
zero width, and one row whose `x` fails to parse. -/
def exCsv : List (String × List CsvRow) :=
  [("img1", [⟨.val 1, .val 2, .val 3, .val 4, .val 1⟩,
             ⟨.val 5, .val 6, .val 0, .val 7, .val 2⟩]),
   ("img2", [⟨.bad, .val 1, .val 2, .val 3, .val 1⟩])]

/-- A concrete subdirectory with two images. -/
def exSub : SubcatDir :=
  ⟨"healthy", true, true, [⟨"img1", ".jpg"⟩, ⟨"img2", ".png"⟩], exDims, exCsv⟩

/-- The same subdirectory with its image listing enumerated in the other
order. -/
def exSubPerm : SubcatDir :=
  ⟨"healthy", true, true, [⟨"img2", ".png"⟩, ⟨"img1", ".jpg"⟩], exDims, exCsv⟩

/-- The spec's three-entry example label map. -/
def exLM : LMFile :=
  .entries [⟨some "ripe", some 1⟩, ⟨some "unripe", some 2⟩, ⟨some "background", some 0⟩]

/-- A concrete category root used as witness input. -/
def exRoot : CatRoot := ⟨some exLM, [("train", ["img2", "img1", ""])], [exSub]⟩

/-- The same state with the split lines and the image listing reordered (and
a duplicated split line), leaving all membership unchanged. -/
def exRootPerm : CatRoot :=
  ⟨some exLM, [("train", ["img1", "", "img2", "img1"])], [exSubPerm]⟩

/-- The image records the collector emits on `exRoot`. -/
def exImgs : List ImageRec :=
  [⟨1, "strawberries/healthy/images/img1.jpg", 100, 80⟩,
   ⟨2, "strawberries/healthy/images/img2.png", 100, 80⟩]

/-- The annotation records the collector emits on `exRoot`. -/
def exAnns : List AnnRec := [⟨1, 1, 1, [1, 2, 3, 4], 3 * 4, 0⟩]

/-- The category records the collector emits on `exRoot`. -/
def exCats : List CatRec := [⟨1, "ripe", "strawberrie"⟩, ⟨2, "unripe", "strawberrie"⟩]

/-- Subdirectory `a` holding image `x.jpg`, no CSV data. -/
def subA : SubcatDir := ⟨"a", true, true, [⟨"x", ".jpg"⟩], exDims, []⟩

/-- Subdirectory `b` holding image `y.jpg`, no CSV data. -/
def subB : SubcatDir := ⟨"b", true, true, [⟨"x", ".jpg"⟩], exDims, []⟩

/-- A root whose subdirectories enumerate as `a` then `b`. -/
def rootAB : CatRoot := ⟨none, [("train", ["x"])], [subA, subB]⟩

/-- The same file set with the subdirectories enumerated as `b` then `a`. -/
def rootBA : CatRoot := ⟨none, [("train", ["x"])], [subB, subA]⟩

end ConvertToCoco

namespace ConvertToCoco

/-! ### Order properties of the string comparator -/

theorem char_eq_of_toNat_eq {c d : Char} (h : c.toNat = d.toNat) : c = d :=
  Char.ext (UInt32.ext h)

theorem string_eq_of_data_eq {a b : String} (h : a.data = b.data) : a = b := by
  cases a; cases b; exact congrArg String.mk h

theorem lexLeB_total : ∀ l1 l2 : List Char, lexLeB l1 l2 = true ∨ lexLeB l2 l1 = true := by
  intro l1
  induction l1 with
  | nil => intro l2; left; cases l2 <;> simp [lexLeB]
  | cons c cs ih =>
    intro l2
    cases l2 with
    | nil => right; simp [lexLeB]
    | cons d ds =>
      rcases Nat.lt_trichotomy c.toNat d.toNat with h | h | h
      · left; simp [lexLeB, h]
      · have h2 : ¬ c.toNat < d.toNat := by omega
        have h3 : ¬ d.toNat < c.toNat := by omega
        simpa [lexLeB, h2, h3] using ih ds
      · right; simp [lexLeB, h]

theorem lexLeB_trans :
    ∀ l1 l2 l3 : List Char, lexLeB l1 l2 = true → lexLeB l2 l3 = true →
      lexLeB l1 l3 = true := by
  intro l1
  induction l1 with
  | nil => intro l2 l3 _ _; cases l3 <;> simp [lexLeB]
  | cons c cs ih =>
    intro l2 l3 h12 h23
    cases l2 with
    | nil => simp [lexLeB] at h12
    | cons d ds =>
      cases l3 with
      | nil => simp [lexLeB] at h23
      | cons e es =>
        simp only [lexLeB] at h12 h23 ⊢
        rcases Nat.lt_trichotomy c.toNat e.toNat with hce | hce | hce
        · simp [hce]
        · have h1 : ¬ c.toNat < e.toNat := by omega
          have h2 : ¬ e.toNat < c.toNat := by omega
          simp only [h1, h2, if_false]
          rcases Nat.lt_trichotomy c.toNat d.toNat with hcd | hcd | hcd
          · have h3 : ¬ d.toNat < e.toNat := by omega
            have h4 : e.toNat < d.toNat := by omega
            simp [h3, h4] at h23
          · have h4 : ¬ c.toNat < d.toNat := by omega
            have h5 : ¬ d.toNat < c.toNat := by omega
            have h6 : ¬ d.toNat < e.toNat := by omega
            have h7 : ¬ e.toNat < d.toNat := by omega
            simp only [h4, h5, if_false] at h12
            simp only [h6, h7, if_false] at h23
            exact ih ds es h12 h23
          · have h8 : ¬ c.toNat < d.toNat := by omega
            simp [h8, hcd] at h12
        · exfalso
          by_cases hcd : c.toNat < d.toNat
          · by_cases hde : d.toNat < e.toNat
            · omega
            · by_cases hed : e.toNat < d.toNat
              · simp [hde, hed] at h23
              · omega
          · by_cases hdc : d.toNat < c.toNat
            · simp [hcd, hdc] at h12
            · by_cases hde : d.toNat < e.toNat
              · omega
              · by_cases hed : e.toNat < d.toNat
                · simp [hde, hed] at h23
                · omega

end ConvertToCoco

namespace ConvertToCoco

theorem lexLeB_antisymm :
    ∀ l1 l2 : List Char, lexLeB l1 l2 = true → lexLeB l2 l1 = true → l1 = l2 := by
  intro l1
  induction l1 with
  | nil =>
    intro l2 h12 _
    cases l2 with
    | nil => rfl
    | cons d ds => simp [lexLeB] at *
  | cons c cs ih =>
    intro l2 h12 h21
    cases l2 with
    | nil => simp [lexLeB] at h12
    | cons d ds =>
      simp only [lexLeB] at h12 h21
      rcases Nat.lt_trichotomy c.toNat d.toNat with h | h | h
      · have h2 : ¬ d.toNat < c.toNat := by omega
        simp [h2, h] at h21
      · have h2 : ¬ c.toNat < d.toNat := by omega
        have h3 : ¬ d.toNat < c.toNat := by omega
        simp only [h2, h3, if_false] at h12 h21
        rw [char_eq_of_toNat_eq h, ih ds h12 h21]
      · have h2 : ¬ c.toNat < d.toNat := by omega
        simp [h2, h] at h12

instance : IsTotal String strle := ⟨fun a b => lexLeB_total a.data b.data⟩

instance : IsTrans String strle := ⟨fun a b c => lexLeB_trans a.data b.data c.data⟩

instance : IsAntisymm String strle :=
  ⟨fun a b h1 h2 => string_eq_of_data_eq (lexLeB_antisymm a.data b.data h1 h2)⟩

instance : IsTotal (ℤ × String) (fun a b => a.1 ≤ b.1) := ⟨fun a b => le_total a.1 b.1⟩

instance : IsTrans (ℤ × String) (fun a b => a.1 ≤ b.1) :=
  ⟨fun _ _ _ hab hbc => le_trans hab hbc⟩

/-! ### Row-level behaviour of the box parser -/

theorem parseRow_eq_none_of_bad_field (r : CsvRow)
    (h : getF r.x = none ∨ getF r.y = none ∨ getF r.width = none ∨
      getF r.height = none ∨ getI r.label = none) : parseRow r = none := by
  cases hx : getF r.x <;> cases hy : getF r.y <;> cases hw : getF r.width <;>
    cases hh : getF r.height <;> cases hl : getI r.label <;>
    simp_all [parseRow]

theorem filterMap_eq_flatMap_singleton {α β : Type} (f : α → Option β) :
    ∀ l : List α, l.filterMap f = l.flatMap (fun a => List.filterMap f [a]) := by
  intro l
  induction l with
  | nil => rfl
  | cons a l ih =>
    rw [List.flatMap_cons, ← ih]
    cases h : f a <;> simp [List.filterMap_cons, h]

end ConvertToCoco

namespace ConvertToCoco

theorem lmGo_error_of_bad_entry :
    ∀ (es : List LMEntry) (acc : List (ℤ × String)) (e : LMEntry), e ∈ es →
      (e.object_name = none ∨ (e.object_name ≠ some "background" ∧ e.label_id = none)) →
      lmGo es acc = .error () := by
  intro es
  induction es with
  | nil => intro acc e he; simp at he
  | cons e0 rest ih =>
    intro acc e he hcond
    rcases List.mem_cons.mp he with rfl | hmem
    · rcases hcond with h1 | ⟨h2, h3⟩
      · simp [lmGo, h1]
      · cases ho : e.object_name with
        | none => simp [lmGo, ho]
        | some name =>
          have hname : name ≠ "background" := by
            intro hgb; exact h2 (by rw [ho, hgb])
          simp [lmGo, ho, hname, h3]
    · cases ho : e0.object_name with
      | none => simp [lmGo, ho]
      | some name =>
        by_cases hb : name = "background"
        · simpa [lmGo, ho, hb] using ih acc e hmem hcond
        · cases hl : e0.label_id with
          | none => simp [lmGo, ho, hb, hl]
          | some lid => simpa [lmGo, ho, hb, hl] using ih _ e hmem hcond

/-- C6: a missing split file, a missing label-map file and a missing per-image
CSV file are each treated as empty, with no error: `read_split_list` gives an
empty list, `load_labelmap` an empty mapping, `parse_csv_boxes` an empty list. -/
theorem missing_files_give_empty_results :
    read_split_list none = [] ∧ load_labelmap none = .ok [] ∧
      parse_csv_boxes none = [] :=
  ⟨rfl, rfl, rfl⟩

theorem rowsGo_cons_emit {r : CsvRow'} {rows : List CsvRow'} {b : Box}
    (h : parseRow' r = .emit b) :
    rowsGo (r :: rows) = Except.map (fun bs => b :: bs) (rowsGo rows) := by
  cases hg : rowsGo rows <;> simp [rowsGo, h, hg, Except.map]

theorem rowsGo_cons_skip {r : CsvRow'} {rows : List CsvRow'}
    (h : parseRow' r = .skipRow) : rowsGo (r :: rows) = rowsGo rows := by
  have he : rowsGo (r :: rows) =
      match parseRow' r with
      | .abort => Except.error ()
      | .skipRow => rowsGo rows
      | .emit b =>
        match rowsGo rows with
        | .error e => .error e
        | .ok bs => .ok (b :: bs) := rfl
  rw [he, h]

theorem rowsGo_cons_abort {r : CsvRow'} {rows : List CsvRow'}
    (h : parseRow' r = .abort) : rowsGo (r :: rows) = .error () := by
  unfold rowsGo; rw [h]

theorem rowsGo_append_skip {r : CsvRow'} (rows2 : List CsvRow')
    (h : parseRow' r = .skipRow) :
    ∀ rows1 : List CsvRow', rowsGo (rows1 ++ r :: rows2) = rowsGo (rows1 ++ rows2) := by
  intro rows1
  induction rows1 with
  | nil => simpa using rowsGo_cons_skip h
  | cons a l ih =>
    rw [List.cons_append, List.cons_append]
    cases ha : parseRow' a with
    | abort => rw [rowsGo_cons_abort ha, rowsGo_cons_abort ha]
    | skipRow => rw [rowsGo_cons_skip ha, rowsGo_cons_skip ha, ih]
    | emit b => rw [rowsGo_cons_emit ha, rowsGo_cons_emit ha, ih]

theorem rowsGo_append_abort {r : CsvRow'} (h : parseRow' r = .abort) :
    ∀ rows1 rows2 : List CsvRow', rowsGo (rows1 ++ r :: rows2) = .error () := by
  intro rows1
  induction rows1 with
  | nil => intro rows2; simpa using rowsGo_cons_abort h
  | cons a l ih =>
    intro rows2
    rw [List.cons_append]
    cases ha : parseRow' a with
    | abort => rw [rowsGo_cons_abort ha]
    | skipRow => rw [rowsGo_cons_skip ha, ih]
    | emit b => rw [rowsGo_cons_emit ha, ih]; rfl

theorem getF_lift (x : FieldF) :
    getF' (liftF x) =
      match getF x with
      | none => FieldEval.valueError
      | some q => FieldEval.ok q := by
  cases x <;> rfl

theorem getI_lift (x : FieldI) :
    getI' (liftI x) =
      match getI x with
      | none => FieldEval.valueError
      | some n => FieldEval.ok n := by
  cases x <;> rfl

theorem parseRow_lift (r : CsvRow) :
    parseRow' (liftRow r) =
      match parseRow r with
      | none => RowOutcome.skipRow
      | some b => RowOutcome.emit b := by
  unfold parseRow' parseRow liftRow
  rw [getF_lift r.x, getF_lift r.y, getF_lift r.width, getF_lift r.height,
    getI_lift r.label]
  cases hx : getF r.x <;> cases hy : getF r.y <;> cases hw : getF r.width <;>
    cases hh : getF r.height <;> cases hl : getI r.label <;>
    first
      | rfl
      | (simp only [feStep, Option.bind]; split <;> rfl)

theorem rowsGo_lift :
    ∀ rows : List CsvRow, rowsGo (rows.map liftRow) = .ok (rows.filterMap parseRow) := by
  intro rows
  induction rows with
  | nil => rfl
  | cons r rest ih =>
    rw [List.map_cons, List.filterMap_cons]
    cases hr : parseRow r with
    | none =>
      have h1 : parseRow' (liftRow r) = .skipRow := by rw [parseRow_lift, hr]
      rw [rowsGo_cons_skip h1, ih]
    | some b =>
      have h1 : parseRow' (liftRow r) = .emit b := by rw [parseRow_lift, hr]
      rw [rowsGo_cons_emit h1, ih]
      rfl

theorem parseRow_emit_fields {r : CsvRow'} {bx : Box} (hb : parseRow' r = .emit bx) :
    ∃ a b w h lab, getF' r.x = .ok a ∧ getF' r.y = .ok b ∧ getF' r.width = .ok w ∧
      getF' r.height = .ok h ∧ getI' r.label = .ok lab ∧ 0 < w ∧ 0 < h ∧
      bx = ⟨[a, b, w, h], w * h, lab⟩ := by
  unfold parseRow' at hb
  cases hx : getF' r.x with
  | valueError => rw [hx] at hb; simp [feStep] at hb
  | typeError => rw [hx] at hb; simp [feStep] at hb
  | ok a =>
    rw [hx] at hb; simp only [feStep] at hb
    cases hy : getF' r.y with
    | valueError => rw [hy] at hb; simp [feStep] at hb
    | typeError => rw [hy] at hb; simp [feStep] at hb
    | ok b =>
      rw [hy] at hb; simp only [feStep] at hb
      cases hw : getF' r.width with
      | valueError => rw [hw] at hb; simp [feStep] at hb
      | typeError => rw [hw] at hb; simp [feStep] at hb
      | ok w =>
        rw [hw] at hb; simp only [feStep] at hb
        cases hh : getF' r.height with
        | valueError => rw [hh] at hb; simp [feStep] at hb
        | typeError => rw [hh] at hb; simp [feStep] at hb
        | ok h =>
          rw [hh] at hb; simp only [feStep] at hb
          cases hl : getI' r.label with
          | valueError => rw [hl] at hb; simp [feStep] at hb
          | typeError => rw [hl] at hb; simp [feStep] at hb
          | ok lab =>
            rw [hl] at hb; simp only [feStep] at hb
            by_cases hpos : 0 < w ∧ 0 < h
            · rw [if_pos hpos] at hb
              injection hb with hb
              exact ⟨a, b, w, h, lab, rfl, rfl, rfl, rfl, rfl, hpos.1, hpos.2, hb.symm⟩
            · rw [if_neg hpos] at hb
              simp at hb

theorem parseRow_valueError_skip (r : CsvRow')
    (hv : getF' r.x = .valueError ∨ getF' r.y = .valueError ∨
      getF' r.width = .valueError ∨ getF' r.height = .valueError ∨
      getI' r.label = .valueError)
    (ht : getF' r.x ≠ .typeError ∧ getF' r.y ≠ .typeError ∧ getF' r.width ≠ .typeError ∧
      getF' r.height ≠ .typeError ∧ getI' r.label ≠ .typeError) :
    parseRow' r = .skipRow := by
  obtain ⟨n1, n2, n3, n4, n5⟩ := ht
  unfold parseRow'
  cases hx : getF' r.x <;> cases hy : getF' r.y <;> cases hw : getF' r.width <;>
    cases hh : getF' r.height <;> cases hl : getI' r.label <;>
    simp_all [feStep]

/-- C4 counterexample: in the row `x=bad, y=1, width=2, height=3, label=1`,
width and height parse to positive values, yet no box is emitted (the
caught `ValueError` on `x` skips the whole row), refuting the claimed "if
and only if" on the parsed width and height alone. -/
theorem parse_positive_dims_iff_counterexample :
    getF' (CsvRow'.mk .bad (.val 1) (.val 2) (.val 3) (.val 1)).width = .ok 2 ∧
    getF' (CsvRow'.mk .bad (.val 1) (.val 2) (.val 3) (.val 1)).height = .ok 3 ∧
    (0:ℚ) < 2 ∧ (0:ℚ) < 3 ∧
    parse_csv_boxes' (some [CsvRow'.mk .bad (.val 1) (.val 2) (.val 3) (.val 1)]) =
      .ok [] :=
  ⟨rfl, rfl, by decide, by decide, rfl⟩

/-- C4 (amended): when `parse_csv_boxes` returns at all, a data row emits a
box if and only if all of x, y, width, height evaluate to floats, the label
to an integer, and width > 0 and height > 0, the box being `bbox=[x,y,w,h]`,
`area=w*h`, `category_id=label`; an emitting, a skipped and an aborting row
act on the file as stated; a short row reached during parsing raises an
uncaught `TypeError` that aborts the whole call, so rows are processed
independently only in its absence, and on short-row-free files the parser
agrees with the collector's fragment model. -/
theorem parse_csv_boxes_emission_characterization :
    (∀ (r : CsvRow') (a b w h : ℚ) (lab : ℤ), getF' r.x = .ok a → getF' r.y = .ok b →
      getF' r.width = .ok w → getF' r.height = .ok h → getI' r.label = .ok lab →
      parseRow' r =
        if 0 < w ∧ 0 < h then .emit ⟨[a, b, w, h], w * h, lab⟩ else .skipRow) ∧
    (∀ (r : CsvRow') (bx : Box), parseRow' r = .emit bx →
      ∃ a b w h lab, getF' r.x = .ok a ∧ getF' r.y = .ok b ∧ getF' r.width = .ok w ∧
        getF' r.height = .ok h ∧ getI' r.label = .ok lab ∧ 0 < w ∧ 0 < h ∧
        bx = ⟨[a, b, w, h], w * h, lab⟩) ∧
    (∀ (r : CsvRow') (rows : List CsvRow') (bx : Box), parseRow' r = .emit bx →
      parse_csv_boxes' (some (r :: rows)) =
        Except.map (fun bs => bx :: bs) (parse_csv_boxes' (some rows))) ∧
    (∀ (r : CsvRow') (rows : List CsvRow'), parseRow' r = .skipRow →
      parse_csv_boxes' (some (r :: rows)) = parse_csv_boxes' (some rows)) ∧
    (∀ (r : CsvRow') (rows : List CsvRow'), parseRow' r = .abort →
      parse_csv_boxes' (some (r :: rows)) = .error ()) ∧
    (∀ rows : List CsvRow, parse_csv_boxes' (some (rows.map liftRow)) =
      .ok (parse_csv_boxes (some rows))) := by
  refine ⟨?_, fun _ _ hb => parseRow_emit_fields hb,
    fun _ _ _ hb => rowsGo_cons_emit hb, fun _ _ hb => rowsGo_cons_skip hb,
    fun _ _ hb => rowsGo_cons_abort hb, fun rows => rowsGo_lift rows⟩
  intro r a b w h lab hx hy hw hh hl
  unfold parseRow'
  rw [hx, hy, hw, hh, hl]
  rfl

theorem parse_csv_boxes_emission_characterization_witness :
    parseRow' (CsvRow'.mk (.val 1) (.val 2) (.val 3) (.val 4) (.val 5)) =
      if (0:ℚ) < 3 ∧ (0:ℚ) < 4 then .emit ⟨[1, 2, 3, 4], 3 * 4, 5⟩ else .skipRow :=
  parse_csv_boxes_emission_characterization.1 _ 1 2 3 4 5 rfl rfl rfl rfl rfl

/-- C5 counterexample: under header `x,y,width,height,label` the short data
row `1,2` reads `None` for width, so `float(None)` raises `TypeError`, which
`except (ValueError, KeyError)` does not catch: the whole file is aborted
and even the box of the preceding well-formed row is lost, refuting "never
aborts the whole file because of a malformed row". -/
theorem malformed_row_aborts_counterexample :
    parseRow' (CsvRow'.mk (.val 1) (.val 2) .missing .missing .missing) = .abort ∧
    parse_csv_boxes' (some [CsvRow'.mk (.val 1) (.val 2) (.val 3) (.val 4) (.val 1)]) =
      .ok [⟨[1, 2, 3, 4], 3 * 4, 1⟩] ∧
    parse_csv_boxes' (some [CsvRow'.mk (.val 1) (.val 2) (.val 3) (.val 4) (.val 1),
      CsvRow'.mk (.val 1) (.val 2) .missing .missing .missing]) = .error () :=
  ⟨rfl, rfl, rfl⟩

/-- C5 (amended): a data row none of whose columns is read as `None` and
whose parse raises `ValueError` is silently skipped in place and parsing
continues, still returning the boxes of every well-formed row; but a data
row whose parse reaches a `None` column value raises an uncaught `TypeError`
that aborts the whole file. -/
theorem malformed_row_skipped_rest_kept :
    (∀ (rows1 rows2 : List CsvRow') (r : CsvRow'), parseRow' r = .skipRow →
      parse_csv_boxes' (some (rows1 ++ r :: rows2)) =
        parse_csv_boxes' (some (rows1 ++ rows2))) ∧
    (∀ r : CsvRow',
      (getF' r.x = .valueError ∨ getF' r.y = .valueError ∨
        getF' r.width = .valueError ∨ getF' r.height = .valueError ∨
        getI' r.label = .valueError) →
      (getF' r.x ≠ .typeError ∧ getF' r.y ≠ .typeError ∧ getF' r.width ≠ .typeError ∧
        getF' r.height ≠ .typeError ∧ getI' r.label ≠ .typeError) →
      parseRow' r = .skipRow) ∧
    (∀ (rows1 rows2 : List CsvRow') (r : CsvRow'), parseRow' r = .abort →
      parse_csv_boxes' (some (rows1 ++ r :: rows2)) = .error ()) :=
  ⟨fun rows1 rows2 _ hr => rowsGo_append_skip rows2 hr rows1,
   fun r hv ht => parseRow_valueError_skip r hv ht,
   fun rows1 rows2 _ hr => rowsGo_append_abort hr rows1 rows2⟩

theorem malformed_row_skipped_rest_kept_witness :
    parse_csv_boxes' (some ([CsvRow'.mk (.val 1) (.val 1) (.val 2) (.val 2) (.val 1)] ++
      CsvRow'.mk .bad .absent (.val 2) (.val 3) (.val 1) ::
      [CsvRow'.mk (.val 0) (.val 0) (.val 1) (.val 1) .absent])) =
    parse_csv_boxes' (some ([CsvRow'.mk (.val 1) (.val 1) (.val 2) (.val 2) (.val 1)] ++
      [CsvRow'.mk (.val 0) (.val 0) (.val 1) (.val 1) .absent])) :=
  malformed_row_skipped_rest_kept.1 _ _ _ rfl

/-- C9 counterexample: the entry `{"object_name": "background"}` lacks the
`label_id` field, yet `load_labelmap` succeeds with an empty mapping, because
background entries are filtered before `label_id` is ever accessed. -/
theorem labelmap_missing_field_counterexample :
    (LMEntry.mk (some "background") none).label_id = none ∧
    load_labelmap (some (.entries [LMEntry.mk (some "background") none])) = .ok [] :=
  ⟨rfl, rfl⟩

/-- C9 (amended): if the file exists but is invalid JSON, or any entry lacks
`object_name`, or any non-background entry lacks `label_id`, `load_labelmap`
propagates the error (no empty or partial mapping is returned). -/
theorem load_labelmap_failure_propagation :
    load_labelmap (some .invalidJson) = .error () ∧
    ∀ (es : List LMEntry) (e : LMEntry), e ∈ es →
      (e.object_name = none ∨ (e.object_name ≠ some "background" ∧ e.label_id = none)) →
      load_labelmap (some (.entries es)) = .error () :=
  ⟨rfl, fun es e he hc => lmGo_error_of_bad_entry es [] e he hc⟩

theorem load_labelmap_failure_propagation_witness :
    load_labelmap (some (.entries [LMEntry.mk (some "ripe") (some 1),
      LMEntry.mk none none])) = .error () :=
  load_labelmap_failure_propagation.2 _ (LMEntry.mk none none) (by decide) (Or.inl rfl)

end ConvertToCoco

namespace ConvertToCoco

/-! ### Basic facts about selection and resolution -/

theorem procStem_none {catName : String} {d : SubcatDir} {acc : Acc} {stem : String}
    (hr : resolveImg d.imageFiles stem = none) :
    procStem catName d acc stem = acc := by
  unfold procStem; rw [hr]

theorem procStem_some {catName : String} {d : SubcatDir} {acc : Acc} {stem : String}
    {f : FName} (hr : resolveImg d.imageFiles stem = some f) :
    procStem catName d acc stem =
      ⟨acc.imgs ++ [⟨acc.ic, catName ++ "/" ++ d.name ++ "/images/" ++ fullName f,
        (d.dims f).1, (d.dims f).2⟩],
       acc.anns ++ numberBoxes acc.ic acc.ac (parse_csv_boxes (d.csv.lookup stem)),
       acc.ic + 1, acc.ac + (parse_csv_boxes (d.csv.lookup stem)).length⟩ := by
  unfold procStem; rw [hr]

theorem mem_selectedStems {stems : List String} {files : List FName} {s : String} :
    s ∈ selectedStems stems files ↔ s ∈ globStems files ∧ s ∈ stems := by
  unfold selectedStems
  rw [(List.perm_insertionSort strle _).mem_iff, List.mem_filter]
  simp

theorem selectedStems_nodup (stems : List String) (files : List FName) :
    (selectedStems stems files).Nodup :=
  (List.perm_insertionSort strle _).nodup_iff.mpr
    (List.Nodup.filter _ (List.nodup_dedup _))

theorem selectedStems_sorted (stems : List String) (files : List FName) :
    List.Sorted strle (selectedStems stems files) :=
  List.sorted_insertionSort strle _

theorem mem_globStems {files : List FName} {s : String} :
    s ∈ globStems files ↔ ∃ e ∈ fourExts, FName.mk s e ∈ files := by
  unfold globStems
  rw [List.mem_dedup, List.mem_map]
  constructor
  · rintro ⟨f, hf, rfl⟩
    rw [List.mem_filter] at hf
    exact ⟨f.ext, of_decide_eq_true hf.2, hf.1⟩
  · rintro ⟨e, he, hmem⟩
    exact ⟨FName.mk s e, List.mem_filter.mpr ⟨hmem, by simpa using he⟩, rfl⟩

theorem resolveImg_spec {files : List FName} {stem : String} {f : FName}
    (h : resolveImg files stem = some f) :
    f.stem = stem ∧ f.ext ∈ extOrder ∧ f ∈ files := by
  unfold resolveImg at h
  cases hf : extOrder.find? (fun e => decide (FName.mk stem e ∈ files)) with
  | none => rw [hf] at h; simp at h
  | some e =>
    rw [hf] at h
    simp only [Option.map] at h
    injection h with h
    subst h
    refine ⟨rfl, List.mem_of_find?_eq_some hf, ?_⟩
    have := List.find?_some hf
    simpa using this

end ConvertToCoco

namespace ConvertToCoco

/-! ### The id-assignment invariant -/

theorem numberBoxes_map_id (ic : ℕ) :
    ∀ (bs : List Box) (ac : ℕ), (numberBoxes ic ac bs).map AnnRec.id = List.range' ac bs.length := by
  intro bs
  induction bs with
  | nil => intro ac; rfl
  | cons b bs ih =>
    intro ac
    simp only [numberBoxes, List.map_cons, List.length_cons, List.range'_succ, ih]

theorem numberBoxes_image_id (ic : ℕ) :
    ∀ (bs : List Box) (ac : ℕ) (a : AnnRec), a ∈ numberBoxes ic ac bs → a.image_id = ic := by
  intro bs
  induction bs with
  | nil => intro ac a ha; simp [numberBoxes] at ha
  | cons b bs ih =>
    intro ac a ha
    rcases List.mem_cons.mp ha with rfl | ha'
    · rfl
    · exact ih _ a ha'

theorem numberBoxes_length (ic : ℕ) :
    ∀ (bs : List Box) (ac : ℕ), (numberBoxes ic ac bs).length = bs.length := by
  intro bs
  induction bs with
  | nil => intro ac; rfl
  | cons b bs ih => intro ac; simp [numberBoxes, ih]

theorem procStem_inv {catName : String} {d : SubcatDir} {stem : String} {acc : Acc}
    (h : accInv acc) : accInv (procStem catName d acc stem) := by
  cases hr : resolveImg d.imageFiles stem with
  | none => rw [procStem_none hr]; exact h
  | some f =>
    rw [procStem_some hr]
    obtain ⟨h1, h2, h3, h4, h5⟩ := h
    set boxes := parse_csv_boxes (d.csv.lookup stem) with hb
    refine ⟨?_, ?_, ?_, ?_, ?_⟩
    · simp only [List.map_append, List.length_append, h1, List.map_cons, List.map_nil,
        List.length_cons, List.length_nil]
    
      rw [show acc.imgs.length + (0 + 1) = acc.imgs.length + 1 by omega,
        List.range'_concat]
      simp [h3, Nat.add_comm]
    · simp only [List.map_append, List.length_append, h2, numberBoxes_map_id,
        numberBoxes_length]
      have : List.range' (acc.anns.length + 1) boxes.length =
          List.range' (1 + 1 * acc.anns.length) boxes.length := by
        congr 1; omega
      rw [h4, this, List.range'_append]
      congr 1; omega
    · simp [h3]
    · simp [numberBoxes_length, h4]; omega
    · intro a ha
      simp only [List.mem_append] at ha
      simp only [List.length_append, List.length_cons, List.length_nil]
      rcases ha with ha | ha
      · have := h5 a ha; omega
      · have := numberBoxes_image_id acc.ic boxes acc.ac a ha
        omega

theorem foldl_procStem_inv {catName : String} {d : SubcatDir} :
    ∀ (stems : List String) (acc : Acc), accInv acc →
      accInv (stems.foldl (procStem catName d) acc) := by
  intro stems
  induction stems with
  | nil => intro acc h; exact h
  | cons s ss ih => intro acc h; exact ih _ (procStem_inv h)

theorem procSubcat_inv {catName : String} {stems : List String} {d : SubcatDir} {acc : Acc}
    (h : accInv acc) : accInv (procSubcat catName stems acc d) := by
  unfold procSubcat
  split
  · exact foldl_procStem_inv _ _ h
  · exact h

theorem foldl_procSubcat_inv {catName : String} {stems : List String} :
    ∀ (ds : List SubcatDir) (acc : Acc), accInv acc →
      accInv (ds.foldl (procSubcat catName stems) acc) := by
  intro ds
  induction ds with
  | nil => intro acc h; exact h
  | cons d ds ih => intro acc h; exact ih _ (procSubcat_inv h)

theorem collectAcc_inv (root : CatRoot) (split catName : String) :
    accInv (collectAcc root split catName) := by
  unfold collectAcc
  exact foldl_procSubcat_inv _ _ ⟨rfl, rfl, rfl, rfl, by simp⟩

theorem collect_ok_elim {root : CatRoot} {split catName : String}
    {imgs : List ImageRec} {anns : List AnnRec} {cats : List CatRec}
    (h : collect root split catName = .ok (imgs, anns, cats)) :
    imgs = (collectAcc root split catName).imgs ∧
    anns = (collectAcc root split catName).anns ∧
    ∃ m, load_labelmap root.labelmap = .ok m ∧ cats = mkCats m catName := by
  unfold collect at h
  cases hm : load_labelmap root.labelmap with
  | error e => rw [hm] at h; simp at h
  | ok m =>
    rw [hm] at h
    simp only [Except.ok.injEq, Prod.mk.injEq] at h
    exact ⟨h.1.symm, h.2.1.symm, m, rfl, h.2.2.symm⟩

end ConvertToCoco

namespace ConvertToCoco

/-- C2: within one split document the image ids and the annotation ids each
form the contiguous strictly ascending sequence 1, 2, 3, ... in emission
order; counters advance only on successful emission, so skipped images and
dropped CSV rows never create gaps. -/
theorem ids_contiguous_from_one (root : CatRoot) (split catName : String)
    (imgs : List ImageRec) (anns : List AnnRec) (cats : List CatRec)
    (h : collect root split catName = .ok (imgs, anns, cats)) :
    imgs.map ImageRec.id = List.range' 1 imgs.length ∧
    anns.map AnnRec.id = List.range' 1 anns.length := by
  obtain ⟨hi, ha, -⟩ := collect_ok_elim h
  obtain ⟨h1, h2, -, -, -⟩ := collectAcc_inv root split catName
  subst hi ha
  exact ⟨h1, h2⟩

theorem ids_contiguous_from_one_witness :
    exImgs.map ImageRec.id = List.range' 1 exImgs.length ∧
    exAnns.map AnnRec.id = List.range' 1 exAnns.length :=
  ids_contiguous_from_one exRoot "train" "strawberries" exImgs exAnns exCats (by rfl)

/-- C1: every annotation in one split document has an `image_id` equal to the
id of exactly one image record of the same document. -/
theorem ann_image_id_matches_exactly_one (root : CatRoot) (split catName : String)
    (imgs : List ImageRec) (anns : List AnnRec) (cats : List CatRec)
    (h : collect root split catName = .ok (imgs, anns, cats)) :
    ∀ a ∈ anns, imgs.countP (fun i => i.id == a.image_id) = 1 := by
  obtain ⟨hi, ha, -⟩ := collect_ok_elim h
  obtain ⟨h1, -, -, -, h5⟩ := collectAcc_inv root split catName
  subst hi ha
  intro a hmem
  obtain ⟨hb1, hb2⟩ := h5 a hmem
  have hc : (collectAcc root split catName).imgs.countP (fun i => i.id == a.image_id) =
      ((collectAcc root split catName).imgs.map ImageRec.id).count a.image_id := by
    rw [List.count, List.countP_map]
    rfl
  rw [hc, h1]
  refine List.count_eq_one_of_mem (List.nodup_range' _ _) ?_
  rw [List.mem_range'_1]
  omega

theorem ann_image_id_matches_exactly_one_witness :
    exImgs.countP (fun i => i.id == 1) = 1 :=
  ann_image_id_matches_exactly_one exRoot "train" "strawberries" exImgs exAnns exCats
    (by rfl) ⟨1, 1, 1, [1, 2, 3, 4], 3 * 4, 0⟩ (List.mem_singleton.mpr rfl)

end ConvertToCoco

namespace ConvertToCoco

/-! ### The categories list -/

theorem mem_dictInsert (k : ℤ) (v : String) :
    ∀ (l : List (ℤ × String)) (p : ℤ × String), p ∈ dictInsert k v l → p = (k, v) ∨ p ∈ l := by
  intro l
  induction l with
  | nil => intro p hp; left; simpa [dictInsert] using hp
  | cons q rest ih =>
    intro p hp
    obtain ⟨k', v'⟩ := q
    by_cases hk : k' = k
    · subst hk
      simp only [dictInsert, if_true] at hp
      rcases List.mem_cons.mp hp with rfl | hp'
      · left; rfl
      · right; exact List.mem_cons_of_mem _ hp'
    · simp only [dictInsert, hk, if_false] at hp
      rcases List.mem_cons.mp hp with rfl | hp'
      · right; exact List.mem_cons_self _ _
      · rcases ih p hp' with h | h
        · left; exact h
        · right; exact List.mem_cons_of_mem _ h

theorem dictInsert_keys (k : ℤ) (v : String) :
    ∀ l : List (ℤ × String), (dictInsert k v l).map Prod.fst =
      if k ∈ l.map Prod.fst then l.map Prod.fst else l.map Prod.fst ++ [k] := by
  intro l
  induction l with
  | nil => simp [dictInsert]
  | cons q rest ih =>
    obtain ⟨k', v'⟩ := q
    by_cases hk : k' = k
    · subst hk
      simp [dictInsert]
    · simp only [dictInsert, hk, if_false, List.map_cons, ih]
      by_cases hmem : k ∈ rest.map Prod.fst
      · simp [hmem, hk]
      · have hkk : ¬ k = k' := fun h => hk h.symm
        simp [hmem, hkk, List.cons_append]

theorem dictInsert_nodup_keys (k : ℤ) (v : String) (l : List (ℤ × String))
    (h : (l.map Prod.fst).Nodup) : ((dictInsert k v l).map Prod.fst).Nodup := by
  rw [dictInsert_keys]
  by_cases hmem : k ∈ l.map Prod.fst
  · simpa [hmem] using h
  · simp only [hmem, if_false]
    simpa [List.nodup_append, hmem] using h

theorem lmGo_ok_mem :
    ∀ (es : List LMEntry) (acc m : List (ℤ × String)), lmGo es acc = .ok m →
      ∀ p ∈ m, p ∈ acc ∨
        ∃ e ∈ es, e.object_name = some p.2 ∧ e.label_id = some p.1 ∧ p.2 ≠ "background" := by
  intro es
  induction es with
  | nil =>
    intro acc m h p hp
    simp only [lmGo, Except.ok.injEq] at h
    subst h
    exact Or.inl hp
  | cons e0 rest ih =>
    intro acc m h p hp
    cases ho : e0.object_name with
    | none => simp [lmGo, ho] at h
    | some name =>
      by_cases hb : name = "background"
      · rw [lmGo, ho] at h
        simp only [hb, if_true] at h
        rcases ih acc m h p hp with h' | ⟨e, he, h1, h2, h3⟩
        · exact Or.inl h'
        · exact Or.inr ⟨e, List.mem_cons_of_mem _ he, h1, h2, h3⟩
      · cases hl : e0.label_id with
        | none => simp [lmGo, ho, hb, hl] at h
        | some lid =>
          rw [lmGo, ho] at h
          simp only [hb, if_false, hl] at h
          rcases ih _ m h p hp with h' | ⟨e, he, h1, h2, h3⟩
          · rcases mem_dictInsert lid name acc p h' with rfl | h''
            · exact Or.inr ⟨e0, List.mem_cons_self _ _, by simpa using ho, by simpa using hl, hb⟩
            · exact Or.inl h''
          · exact Or.inr ⟨e, List.mem_cons_of_mem _ he, h1, h2, h3⟩

theorem lmGo_ok_nodup_keys :
    ∀ (es : List LMEntry) (acc m : List (ℤ × String)), lmGo es acc = .ok m →
      (acc.map Prod.fst).Nodup → (m.map Prod.fst).Nodup := by
  intro es
  induction es with
  | nil =>
    intro acc m h hn
    simp only [lmGo, Except.ok.injEq] at h
    subst h
    exact hn
  | cons e0 rest ih =>
    intro acc m h hn
    cases ho : e0.object_name with
    | none => simp [lmGo, ho] at h
    | some name =>
      by_cases hb : name = "background"
      · rw [lmGo, ho] at h
        simp only [hb, if_true] at h
        exact ih acc m h hn
      · cases hl : e0.label_id with
        | none => simp [lmGo, ho, hb, hl] at h
        | some lid =>
          rw [lmGo, ho] at h
          simp only [hb, if_false, hl] at h
          exact ih _ m h (dictInsert_nodup_keys lid name acc hn)

end ConvertToCoco

namespace ConvertToCoco

/-- C7 counterexample: on the spec's example label map with category name
`"strawberries"`, the code emits supercategory `"strawberrie"` (exactly one
trailing character stripped), not the claimed `"strawberr"`. -/
theorem categories_supercategory_counterexample :
    collect exRoot "train" "strawberries" = .ok (exImgs, exAnns, exCats) ∧
    exCats.map CatRec.supercategory = ["strawberrie", "strawberrie"] ∧
    stripS "strawberries" = "strawberrie" ∧
    "strawberrie" ≠ "strawberr" :=
  ⟨by rfl, rfl, by decide, by decide⟩

/-- C7 (amended): the categories list is built solely from the non-background
label-map entries, sorted by strictly ascending label id, with `id` the
entry's `label_id`, `name` its `object_name`, and `supercategory` the
category name with the trailing `"s"` stripped; on the spec's three-entry
example map with category name `"strawberries"` it is exactly the two entries
with ids 1 and 2, each with supercategory `"strawberrie"`. -/
theorem categories_sorted_and_from_labelmap (root : CatRoot) (split catName : String)
    (imgs : List ImageRec) (anns : List AnnRec) (cats : List CatRec)
    (h : collect root split catName = .ok (imgs, anns, cats)) :
    cats.Pairwise (fun a b => a.id < b.id) ∧
    (∀ c ∈ cats, c.supercategory = stripS catName ∧ c.name ≠ "background" ∧
      ∃ es, root.labelmap = some (.entries es) ∧
        ∃ e ∈ es, e.object_name = some c.name ∧ e.label_id = some c.id) ∧
    collect exRoot "train" "strawberries" = .ok (exImgs, exAnns, exCats) ∧
    exCats = [⟨1, "ripe", "strawberrie"⟩, ⟨2, "unripe", "strawberrie"⟩] := by
  obtain ⟨-, -, m, hm, hcats⟩ := collect_ok_elim h
  have hnodup : (m.map Prod.fst).Nodup := by
    cases hf : root.labelmap with
    | none =>
      rw [hf] at hm
      simp only [load_labelmap, Except.ok.injEq] at hm
      subst hm; simp
    | some lm =>
      cases lm with
      | invalidJson => rw [hf] at hm; simp [load_labelmap] at hm
      | entries es =>
        rw [hf] at hm
        simp only [load_labelmap] at hm
        exact lmGo_ok_nodup_keys es [] m hm (by simp)
  have hperm := List.perm_insertionSort (fun a b : ℤ × String => a.1 ≤ b.1) m
  have hsorted := List.sorted_insertionSort (fun a b : ℤ × String => a.1 ≤ b.1) m
  have hnodups : ((List.insertionSort (fun a b : ℤ × String => a.1 ≤ b.1) m).map
      Prod.fst).Nodup := (hperm.map Prod.fst).nodup_iff.mpr hnodup
  have hne : (List.insertionSort (fun a b : ℤ × String => a.1 ≤ b.1) m).Pairwise
      (fun p q => p.1 ≠ q.1) := List.pairwise_map.mp hnodups
  have hlt : (List.insertionSort (fun a b : ℤ × String => a.1 ≤ b.1) m).Pairwise
      (fun p q => p.1 < q.1) :=
    (List.Pairwise.and hsorted hne).imp (fun hpq => lt_of_le_of_ne hpq.1 hpq.2)
  refine ⟨?_, ?_, by rfl, rfl⟩
  · subst hcats
    unfold mkCats
    exact List.pairwise_map.mpr (hlt.imp (fun hpq => hpq))
  · intro c hc
    subst hcats
    unfold mkCats at hc
    rw [List.mem_map] at hc
    obtain ⟨p, hp, rfl⟩ := hc
    have hpm : p ∈ m := hperm.subset hp
    refine ⟨rfl, ?_, ?_⟩
    · cases hf : root.labelmap with
      | none =>
        rw [hf] at hm
        simp only [load_labelmap, Except.ok.injEq] at hm
        subst hm; simp at hpm
      | some lm =>
        cases lm with
        | invalidJson => rw [hf] at hm; simp [load_labelmap] at hm
        | entries es =>
          rw [hf] at hm
          simp only [load_labelmap] at hm
          rcases lmGo_ok_mem es [] m hm p hpm with h' | ⟨e, he, h1, h2, h3⟩
          · simp at h'
          · exact h3
    · cases hf : root.labelmap with
      | none =>
        rw [hf] at hm
        simp only [load_labelmap, Except.ok.injEq] at hm
        subst hm; simp at hpm
      | some lm =>
        cases lm with
        | invalidJson => rw [hf] at hm; simp [load_labelmap] at hm
        | entries es =>
          rw [hf] at hm
          simp only [load_labelmap] at hm
          rcases lmGo_ok_mem es [] m hm p hpm with h' | ⟨e, he, h1, h2, h3⟩
          · simp at h'
          · exact ⟨es, rfl, e, he, h1, h2⟩

theorem categories_sorted_and_from_labelmap_witness :
    List.Pairwise (fun a b : CatRec => a.id < b.id) exCats :=
  (categories_sorted_and_from_labelmap exRoot "train" "strawberries" exImgs exAnns exCats
    (by rfl)).1

end ConvertToCoco

namespace ConvertToCoco

/-! ### Provenance of emitted image records -/

theorem procStem_prov {root : CatRoot} {split catName : String} {d : SubcatDir}
    (hd : d ∈ root.subdirs) {stem : String} (hs1 : stem ∈ splitStems root split)
    (hs2 : stem ∈ globStems d.imageFiles) {acc : Acc}
    (hacc : ∀ i ∈ acc.imgs, imgProvenance root split catName i) :
    ∀ i ∈ (procStem catName d acc stem).imgs, imgProvenance root split catName i := by
  intro i hi
  cases hr : resolveImg d.imageFiles stem with
  | none => rw [procStem_none hr] at hi; exact hacc i hi
  | some f =>
    rw [procStem_some hr] at hi
    simp only [List.mem_append, List.mem_singleton] at hi
    rcases hi with hi | rfl
    · exact hacc i hi
    · exact ⟨d, hd, stem, f, hs1, hs2, hr, rfl⟩

theorem foldl_procStem_prov {root : CatRoot} {split catName : String} {d : SubcatDir}
    (hd : d ∈ root.subdirs) :
    ∀ (stems : List String),
      (∀ s ∈ stems, s ∈ splitStems root split ∧ s ∈ globStems d.imageFiles) →
      ∀ acc : Acc, (∀ i ∈ acc.imgs, imgProvenance root split catName i) →
      ∀ i ∈ (stems.foldl (procStem catName d) acc).imgs, imgProvenance root split catName i := by
  intro stems
  induction stems with
  | nil => intro _ acc hacc; exact hacc
  | cons s ss ih =>
    intro hcond acc hacc
    have hs := hcond s (List.mem_cons_self s ss)
    exact ih (fun t ht => hcond t (List.mem_cons_of_mem s ht)) _
      (procStem_prov hd hs.1 hs.2 hacc)

theorem procSubcat_prov {root : CatRoot} {split catName : String} {d : SubcatDir}
    (hd : d ∈ root.subdirs) {acc : Acc}
    (hacc : ∀ i ∈ acc.imgs, imgProvenance root split catName i) :
    ∀ i ∈ (procSubcat catName (splitStems root split) acc d).imgs,
      imgProvenance root split catName i := by
  unfold procSubcat
  split
  · refine foldl_procStem_prov hd _ ?_ acc hacc
    intro s hs
    have := mem_selectedStems.mp hs
    exact ⟨this.2, this.1⟩
  · exact hacc

theorem foldl_procSubcat_prov {root : CatRoot} {split catName : String} :
    ∀ (ds : List SubcatDir), (∀ d ∈ ds, d ∈ root.subdirs) →
      ∀ acc : Acc, (∀ i ∈ acc.imgs, imgProvenance root split catName i) →
      ∀ i ∈ (ds.foldl (procSubcat catName (splitStems root split)) acc).imgs,
        imgProvenance root split catName i := by
  intro ds
  induction ds with
  | nil => intro _ acc hacc; exact hacc
  | cons d ds ih =>
    intro hcond acc hacc
    exact ih (fun t ht => hcond t (List.mem_cons_of_mem d ht)) _
      (procSubcat_prov (hcond d (List.mem_cons_self d ds)) hacc)

theorem collectAcc_prov (root : CatRoot) (split catName : String) :
    ∀ i ∈ (collectAcc root split catName).imgs, imgProvenance root split catName i := by
  unfold collectAcc
  exact foldl_procSubcat_prov root.subdirs (fun d hd => hd) _ (by intro i hi; simp at hi)

/-- C8: every image record in a split document arises from a resolved file
`f` of one subdirectory's listing whose stem — the base name the collector
looked up, recovered by the resolution loop itself — is a member of the
split set and of the glob candidate set, with the record's `file_name` built
from exactly that file; so a base name absent from the split file is never
emitted, even when matching files exist on disk. -/
theorem emitted_images_only_from_split (root : CatRoot) (split catName : String)
    (imgs : List ImageRec) (anns : List AnnRec) (cats : List CatRec)
    (h : collect root split catName = .ok (imgs, anns, cats)) :
    ∀ i ∈ imgs, ∃ d ∈ root.subdirs, ∃ f : FName,
      f.stem ∈ splitStems root split ∧
      f.stem ∈ globStems d.imageFiles ∧
      resolveImg d.imageFiles f.stem = some f ∧
      f ∈ d.imageFiles ∧
      i.file_name = catName ++ "/" ++ d.name ++ "/images/" ++ (f.stem ++ f.ext) := by
  obtain ⟨hi, -, -⟩ := collect_ok_elim h
  subst hi
  intro i hmem
  obtain ⟨d, hd, stem, f, h1, h2, hr, hfn⟩ := collectAcc_prov root split catName i hmem
  obtain ⟨hstem, -, hfil⟩ := resolveImg_spec hr
  refine ⟨d, hd, f, ?_, ?_, ?_, hfil, hfn⟩
  · rw [hstem]; exact h1
  · rw [hstem]; exact h2
  · rw [hstem]; exact hr

theorem emitted_images_only_from_split_witness :
    ∃ d ∈ exRoot.subdirs, ∃ f : FName,
      f.stem ∈ splitStems exRoot "train" ∧
      f.stem ∈ globStems d.imageFiles ∧
      resolveImg d.imageFiles f.stem = some f ∧
      f ∈ d.imageFiles ∧
      (ImageRec.mk 1 "strawberries/healthy/images/img1.jpg" 100 80).file_name =
        "strawberries" ++ "/" ++ d.name ++ "/images/" ++ (f.stem ++ f.ext) :=
  emitted_images_only_from_split exRoot "train" "strawberries" exImgs exAnns exCats
    (by rfl) (ImageRec.mk 1 "strawberries/healthy/images/img1.jpg" 100 80) (by decide)

end ConvertToCoco

namespace ConvertToCoco

/-! ### BMP handling -/

theorem find?_append_of_exists {α : Type} (p : α → Bool) :
    ∀ (l1 l2 : List α), (∃ x ∈ l1, p x = true) →
      ∃ y ∈ l1, (l1 ++ l2).find? p = some y := by
  intro l1 l2
  induction l1 with
  | nil => rintro ⟨x, hx, -⟩; simp at hx
  | cons a l ih =>
    rintro ⟨x, hx, hp⟩
    by_cases ha : p a = true
    · exact ⟨a, List.mem_cons_self a l, by simp [List.find?_cons_of_pos, ha]⟩
    · rcases List.mem_cons.mp hx with rfl | hx'
      · exact absurd hp ha
      · obtain ⟨y, hy, hfind⟩ := ih ⟨x, hx', hp⟩
        refine ⟨y, List.mem_cons_of_mem a hy, ?_⟩
        rw [List.cons_append, List.find?_cons_of_neg _ (by simpa using ha)]
        exact hfind

theorem resolveImg_ext_of_cand {files : List FName} {s : String} {f : FName}
    (hs : s ∈ globStems files) (hr : resolveImg files s = some f) : f.ext ∈ fourExts := by
  obtain ⟨e0, he0, hmem⟩ := mem_globStems.mp hs
  have hex : ∃ x ∈ fourExts, (fun e => decide (FName.mk s e ∈ files)) x = true :=
    ⟨e0, he0, by simpa using hmem⟩
  obtain ⟨y, hy, hfind⟩ :=
    find?_append_of_exists (fun e => decide (FName.mk s e ∈ files)) fourExts
      [".bmp", ".BMP"] hex
  have hsplit : extOrder = fourExts ++ [".bmp", ".BMP"] := rfl
  unfold resolveImg at hr
  rw [hsplit, hfind] at hr
  simp only [Option.map] at hr
  injection hr with hr
  rw [← hr]
  exact hy

/-- C10: an image listed in the split file but present on disk only as
`.bmp`/`.BMP` is never emitted: the candidate set is built exclusively from
the four `jpg`/`png` globs, every emitted image resolves to a file whose
extension is one of those four, and resolution for a candidate stem can never
fall through to the BMP entries of the resolution order. -/
theorem bmp_only_images_never_emitted (root : CatRoot) (split catName : String)
    (imgs : List ImageRec) (anns : List AnnRec) (cats : List CatRec)
    (h : collect root split catName = .ok (imgs, anns, cats)) :
    (∀ i ∈ imgs, ∃ d ∈ root.subdirs, ∃ f : FName, f ∈ d.imageFiles ∧ f.ext ∈ fourExts ∧
      i.file_name = catName ++ "/" ++ d.name ++ "/images/" ++ (f.stem ++ f.ext)) ∧
    (∀ (files : List FName) (s : String),
      s ∈ globStems files ↔ ∃ e ∈ fourExts, FName.mk s e ∈ files) ∧
    (∀ (files : List FName) (s : String) (f : FName), s ∈ globStems files →
      resolveImg files s = some f → f.ext ∈ fourExts) := by
  refine ⟨?_, fun files s => mem_globStems, fun files s f hs hr => resolveImg_ext_of_cand hs hr⟩
  obtain ⟨hi, -, -⟩ := collect_ok_elim h
  subst hi
  intro i hmem
  obtain ⟨d, hd, stem, f, h1, h2, hr, hfn⟩ := collectAcc_prov root split catName i hmem
  obtain ⟨-, -, hfil⟩ := resolveImg_spec hr
  exact ⟨d, hd, f, hfil, resolveImg_ext_of_cand h2 hr, hfn⟩

theorem bmp_only_images_never_emitted_witness :
    ∃ d ∈ exRoot.subdirs, ∃ f : FName, f ∈ d.imageFiles ∧ f.ext ∈ fourExts ∧
      (ImageRec.mk 1 "strawberries/healthy/images/img1.jpg" 100 80).file_name =
        "strawberries" ++ "/" ++ d.name ++ "/images/" ++ (f.stem ++ f.ext) :=
  (bmp_only_images_never_emitted exRoot "train" "strawberries" exImgs exAnns exCats
    (by rfl)).1 (ImageRec.mk 1 "strawberries/healthy/images/img1.jpg" 100 80) (by decide)

end ConvertToCoco

namespace ConvertToCoco

/-! ### Determinism and traversal order -/

theorem sorted_nodup_ext {l1 l2 : List String} (s1 : List.Sorted strle l1)
    (s2 : List.Sorted strle l2) (n1 : l1.Nodup) (n2 : l2.Nodup)
    (h : ∀ s, s ∈ l1 ↔ s ∈ l2) : l1 = l2 :=
  List.eq_of_perm_of_sorted ((List.perm_ext_iff_of_nodup n1 n2).mpr h) s1 s2

theorem selectedStems_congr {stems1 stems2 : List String} {files1 files2 : List FName}
    (hs : ∀ s, s ∈ stems1 ↔ s ∈ stems2) (hf : ∀ f, f ∈ files1 ↔ f ∈ files2) :
    selectedStems stems1 files1 = selectedStems stems2 files2 := by
  refine sorted_nodup_ext (selectedStems_sorted _ _) (selectedStems_sorted _ _)
    (selectedStems_nodup _ _) (selectedStems_nodup _ _) ?_
  intro s
  rw [mem_selectedStems, mem_selectedStems, mem_globStems, mem_globStems]
  constructor
  · rintro ⟨⟨e, he, hm⟩, h2⟩
    exact ⟨⟨e, he, (hf _).mp hm⟩, (hs _).mp h2⟩
  · rintro ⟨⟨e, he, hm⟩, h2⟩
    exact ⟨⟨e, he, (hf _).mpr hm⟩, (hs _).mpr h2⟩

theorem resolveImg_congr {files1 files2 : List FName}
    (hf : ∀ f, f ∈ files1 ↔ f ∈ files2) (s : String) :
    resolveImg files1 s = resolveImg files2 s := by
  unfold resolveImg
  have : (fun e => decide (FName.mk s e ∈ files1)) =
      (fun e => decide (FName.mk s e ∈ files2)) :=
    funext fun e => decide_eq_decide.mpr (hf _)
  rw [this]

theorem procStem_congr {catName : String} {d1 d2 : SubcatDir} (he : SubcatEquiv d1 d2) :
    procStem catName d1 = procStem catName d2 := by
  funext acc stem
  obtain ⟨hn, -, -, hf, hdims, hcsv⟩ := he
  unfold procStem
  rw [resolveImg_congr hf, hn, hdims, hcsv]

theorem procSubcat_congr {catName : String} {stems1 stems2 : List String}
    {d1 d2 : SubcatDir} (hs : ∀ s, s ∈ stems1 ↔ s ∈ stems2) (he : SubcatEquiv d1 d2)
    (acc : Acc) : procSubcat catName stems1 acc d1 = procSubcat catName stems2 acc d2 := by
  obtain ⟨hn, hd, hi, hf, hdims, hcsv⟩ := he
  unfold procSubcat
  rw [hn, hd, hi, selectedStems_congr hs hf, procStem_congr ⟨hn, hd, hi, hf, hdims, hcsv⟩]

theorem foldl_procSubcat_congr {catName : String} {stems1 stems2 : List String}
    (hs : ∀ s, s ∈ stems1 ↔ s ∈ stems2) :
    ∀ {l1 l2 : List SubcatDir}, List.Forall₂ SubcatEquiv l1 l2 → ∀ acc : Acc,
      l1.foldl (procSubcat catName stems1) acc = l2.foldl (procSubcat catName stems2) acc := by
  intro l1 l2 hrel
  induction hrel with
  | nil => intro acc; rfl
  | cons hde hrest ih =>
    intro acc
    rw [List.foldl_cons, List.foldl_cons, procSubcat_congr hs hde acc]
    exact ih _

/-- C3 (amended): the collector's output is a function of the directory state
together with the enumeration order of the category root's subdirectories.
Within each subcategory, stems are processed in sorted order, so the output
is invariant under any reordering (or duplication) of split-file lines or of
the image-file listing of a subdirectory. -/
theorem runSplit_deterministic_up_to_listing_order (root1 root2 : CatRoot)
    (split catName description url : String) (year : ℤ)
    (hl : root1.labelmap = root2.labelmap)
    (hs : ∀ s, s ∈ splitStems root1 split ↔ s ∈ splitStems root2 split)
    (hd : List.Forall₂ SubcatEquiv root1.subdirs root2.subdirs) :
    runSplit root1 split catName description url year =
      runSplit root2 split catName description url year := by
  have hacc : collectAcc root1 split catName = collectAcc root2 split catName := by
    unfold collectAcc
    exact foldl_procSubcat_congr hs hd _
  have hcol : collect root1 split catName = collect root2 split catName := by
    unfold collect
    rw [hl, hacc]
  unfold runSplit
  rw [hcol]

/-- C3 counterexample: two states with identical label map, identical split
files and the same set of subdirectories (a permutation in enumeration
order) produce different output documents, because the subdirectory loop
follows the unsorted `iterdir` enumeration order. -/
theorem traversal_not_sorted_counterexample :
    rootAB.labelmap = rootBA.labelmap ∧
    rootAB.splitFiles = rootBA.splitFiles ∧
    List.Perm rootAB.subdirs rootBA.subdirs ∧
    runSplit rootAB "train" "strawberries" "d" "u" 2015 ≠
      runSplit rootBA "train" "strawberries" "d" "u" 2015 := by
  refine ⟨rfl, rfl, List.Perm.swap subB subA [], ?_⟩
  intro hcontra
  have h1 : runSplit rootAB "train" "strawberries" "d" "u" 2015 =
      .ok ⟨⟨2015, "1.0.0", "d", "u"⟩,
        [⟨1, "strawberries/a/images/x.jpg", 100, 80⟩,
         ⟨2, "strawberries/b/images/x.jpg", 100, 80⟩], [], [], []⟩ := by rfl
  have h2 : runSplit rootBA "train" "strawberries" "d" "u" 2015 =
      .ok ⟨⟨2015, "1.0.0", "d", "u"⟩,
        [⟨1, "strawberries/b/images/x.jpg", 100, 80⟩,
         ⟨2, "strawberries/a/images/x.jpg", 100, 80⟩], [], [], []⟩ := by rfl
  have hne : "strawberries/a/images/x.jpg" ≠ "strawberries/b/images/x.jpg" := by decide
  rw [h1, h2] at hcontra
  simp only [Except.ok.injEq, CocoDoc.mk.injEq, List.cons.injEq, ImageRec.mk.injEq] at hcontra
  exact hne hcontra.2.1.1.2.1

theorem runSplit_deterministic_up_to_listing_order_witness :
    runSplit exRoot "train" "strawberries" "d" "u" 2015 =
      runSplit exRootPerm "train" "strawberries" "d" "u" 2015 :=
  runSplit_deterministic_up_to_listing_order exRoot exRootPerm "train" "strawberries"
    "d" "u" 2015 rfl
    (by
      intro s
      have e1 : splitStems exRoot "train" = ["img2", "img1"] := by rfl
      have e2 : splitStems exRootPerm "train" = ["img1", "img2", "img1"] := by rfl
      rw [e1, e2]
      simp only [List.mem_cons, List.not_mem_nil, or_false]
      tauto)
    (by
      refine List.Forall₂.cons ⟨rfl, rfl, rfl, ?_, rfl, rfl⟩ List.Forall₂.nil
      intro f
      show f ∈ exSub.imageFiles ↔ f ∈ exSubPerm.imageFiles
      have e1 : exSub.imageFiles = [⟨"img1", ".jpg"⟩, ⟨"img2", ".png"⟩] := rfl
      have e2 : exSubPerm.imageFiles = [⟨"img2", ".png"⟩, ⟨"img1", ".jpg"⟩] := rfl
      rw [e1, e2]
      simp only [List.mem_cons, List.not_mem_nil, or_false]
      tauto)

end ConvertToCoco
